import Mathlib

/-!
Verification development for the reactive rendering core of the
`dive-into-vue` repository: shallow embeddings of the dependency-tracking
observer (`src/vue2/core/observer/index.js`, `dep.js`, the watcher in
`src/unnamed/part_013`), the watcher scheduler
(`src/vue/core/components/keep-alive.js`), and the virtual-DOM patch
algorithm (`src/vue2/core/vdom/patch.js`), together with theorems settling
the behavioural claims about them.
-/

namespace DiveIntoVue

/-! ## JavaScript value model

Reactive field values are JavaScript values compared with `===`.  The one
relevant deviation of `===` from Leibniz equality is `NaN === NaN` being
`false`; all other primitive comparisons are plain equality, and object
comparisons are identity (modelled by an object id). -/

inductive JsVal where
  | num (n : Int)
  | nan
  | str (s : String)
  | boolean (b : Bool)
  | undef
  | nullv
  | obj (o : Nat)
  | arr (o : Nat)
deriving DecidableEq, Repr

/-- JavaScript strict equality `===`: `NaN` is unequal to everything,
including itself; otherwise value (resp. identity) equality. -/
def jsStrictEq : JsVal → JsVal → Bool
  | .nan, _ => false
  | _, .nan => false
  | a, b => decide (a = b)

/-! ## Reactive field and its Dep (`defineReactive` in
`src/vue2/core/observer/index.js`, `Dep` in
`src/vue2/core/observer/dep.js`)

A reactive field as produced by `defineReactive(obj, key)` on plain data
(two-argument call: no pre-existing property getter/setter, so reads
return the closed-over `val` and writes assign it).  The field owns a
`Dep` whose `subs` hold subscriber watcher ids. -/

structure DepRec where
  did : Nat
  subs : List Nat
deriving DecidableEq, Repr

/-- Model of `Dep.prototype.notify`: snapshot the subscriber list and call
`update()` on each entry; the result is the list of watcher ids that
receive `update`, in invocation order.  (The dev-mode `!config.async`
re-sort is not taken: we model the default async configuration.) -/
def DepRec.notify (d : DepRec) : List Nat :=
  d.subs

/-- Model of `observe(value)` returning an observer: it does so exactly
for plain objects and arrays (the `shouldObserve`, non-SSR, extensible,
non-Vue-instance conditions of the source are collapsed into the value
kind, which is all that matters for a freshly assigned value). -/
def observeFlag : JsVal → Bool
  | .obj _ => true
  | .arr _ => true
  | _ => false

structure RField where
  val : JsVal
  shallow : Bool
  childObserved : Bool
  dep : DepRec
deriving DecidableEq, Repr

/-- Model of `reactiveSetter` (`src/vue2/core/observer/index.js` lines
203-225) for a plain data field (no pre-defined getter/setter, production
mode so no `customSetter`): if the new value is strictly equal to the old,
or both are self-unequal (`NaN`-like), return without storing or
notifying; otherwise store the new value, re-observe it unless shallow,
and notify the dep.  Returns the updated field and the list of watcher
ids notified. -/
def reactiveSetter (f : RField) (newVal : JsVal) : RField × List Nat :=
  let value := f.val
  if jsStrictEq newVal value || (!jsStrictEq newVal newVal && !jsStrictEq value value) then
    (f, [])
  else
    let f' : RField :=
      { f with
        val := newVal
        childObserved := !f.shallow && observeFlag newVal }
    (f', f'.dep.notify)

/-! ## Intercepted array mutators (`src/vue2/core/observer/dep.js` lines
106-133, the `arrayMethods` module)

The seven intercepted mutating methods (`push`, `pop`, `shift`,
`unshift`, `splice`, `sort`, `reverse`).  The wrapper `mutator` calls the
cached native method, observes `inserted` (the arguments for
`push`/`unshift`, `args.slice(2)` for `splice`), then calls
`ob.dep.notify()` once and returns the native result. -/

inductive ArrayMut where
  | push (items : List JsVal)
  | pop
  | shift
  | unshift (items : List JsVal)
  | splice (start : Int) (deleteCount : Int) (items : List JsVal)
  | sortM (lt : JsVal → JsVal → Bool)
  | reverse

/-- Return value of a native array method: `push`/`unshift` return the new
length, `pop`/`shift` the removed element (or `undefined`), `splice` the
array of removed elements, and `sort`/`reverse` the array itself. -/
inductive MutResult where
  | numR (n : Nat)
  | valR (v : JsVal)
  | arrR (l : List JsVal)
  | selfR
deriving DecidableEq, Repr

/-- ECMAScript index normalization for `splice`: a negative `start` counts
from the end clamped at 0, a positive one is clamped at the length. -/
def spliceStart (s : Int) (len : Nat) : Nat :=
  if s < 0 then (Int.ofNat len + s).toNat else min s.toNat len

/-- ECMAScript delete-count normalization for `splice`: clamped between 0
and the number of elements after `start`. -/
def spliceDelete (dc : Int) (len st : Nat) : Nat :=
  min dc.toNat (len - st)

/-- The native (uninstrumented) behaviour of the seven mutating array
methods, on the list of elements, returning the mutated list and the
method's return value.  `sort` runs with the supplied comparator. -/
def nativeApply : ArrayMut → List JsVal → List JsVal × MutResult
  | .push items, l => (l ++ items, .numR (l.length + items.length))
  | .pop, l => (l.dropLast, .valR (l.getLast?.getD .undef))
  | .shift, l => (l.tail, .valR (l.head?.getD .undef))
  | .unshift items, l => (items ++ l, .numR (items.length + l.length))
  | .splice s dc items, l =>
      let st := spliceStart s l.length
      let dca := spliceDelete dc l.length st
      (l.take st ++ items ++ l.drop (st + dca), .arrR ((l.drop st).take dca))
  | .sortM lt, l => (List.insertionSort (fun a b => lt a b = true) l, .selfR)
  | .reverse, l => (l.reverse, .selfR)

structure MutOut where
  list : List JsVal
  result : MutResult
  observed : List JsVal
  notifies : Nat
deriving Repr

/-- Model of the intercepted `mutator` wrapper: call the cached original
method, compute `inserted` for the three length-growing methods, observe
every inserted element (`ob.observeArray(inserted)`), and notify the
array's dep exactly once (`ob.dep.notify()`). -/
def mutator (m : ArrayMut) (l : List JsVal) : MutOut :=
  let r := nativeApply m l
  let inserted : Option (List JsVal) :=
    match m with
    | .push items => some items
    | .unshift items => some items
    | .splice _ _ items => some items
    | _ => none
  { list := r.1
    result := r.2
    observed := inserted.getD []
    notifies := 1 }

/-- Spec-side description of which elements count as newly inserted and
how they sit inside the mutated structure, per method. -/
def insertedSpec : ArrayMut → List JsVal → List JsVal → MutResult → List JsVal → Prop
  | .push items, l, l', _, obs => obs = items ∧ l' = l ++ obs
  | .unshift items, l, l', _, obs => obs = items ∧ l' = obs ++ l
  | .splice _ _ items, l, l', res, obs =>
      obs = items ∧
      ∃ pre mid post, l = pre ++ mid ++ post ∧ l' = pre ++ obs ++ post ∧ res = .arrR mid
  | .pop, l, l', _, obs => obs = [] ∧ l' = l.dropLast
  | .shift, l, l', _, obs => obs = [] ∧ l' = l.tail
  | .sortM _, l, l', _, obs => obs = [] ∧ l'.Perm l
  | .reverse, l, l', _, obs => obs = [] ∧ l' = l.reverse

/-! ## Watcher dependency collection (`src/unnamed/part_013`, the
`Watcher` class) and the Dep target stack (`src/vue2/core/observer/dep.js`)

Deps and Watchers are modelled arena-style by their numeric ids: `DepEnv`
maps each dep id to its `subs` list of subscriber watcher ids, and `WDeps`
holds one watcher's `deps` / `depIds` / `newDeps` / `newDepIds`.  A getter
evaluation is abstracted by the sequence of dep ids it reads (each read
triggers `dep.depend()`, hence `Dep.target.addDep(dep)`). -/

structure DepEnv where
  subs : Nat → List Nat

/-- Model of `Dep.prototype.addSub`: push the watcher onto this dep's
subscriber list. -/
def DepEnv.addSub (env : DepEnv) (d wid : Nat) : DepEnv :=
  ⟨fun x => if x = d then env.subs d ++ [wid] else env.subs x⟩

/-- Model of `Dep.prototype.removeSub` (`remove(this.subs, sub)`): remove
the first occurrence of the watcher from this dep's subscriber list. -/
def DepEnv.removeSub (env : DepEnv) (d wid : Nat) : DepEnv :=
  ⟨fun x => if x = d then (env.subs d).erase wid else env.subs x⟩

structure WDeps where
  deps : List Nat
  depIds : List Nat
  newDeps : List Nat
  newDepIds : List Nat
deriving DecidableEq, Repr

/-- Model of `Watcher.prototype.addDep`: if the dep was not yet seen this
evaluation, record it in `newDepIds`/`newDeps`, and subscribe to it
(`dep.addSub(this)`) unless the previous evaluation already did
(`this.depIds.has(id)`). -/
def addDep (wid : Nat) : WDeps × DepEnv → Nat → WDeps × DepEnv :=
  fun p d =>
    if d ∈ p.1.newDepIds then p
    else
      let w' : WDeps :=
        { p.1 with newDepIds := d :: p.1.newDepIds, newDeps := p.1.newDeps ++ [d] }
      if d ∈ p.1.depIds then (w', p.2) else (w', p.2.addSub d wid)

/-- Model of `Watcher.prototype.cleanupDeps`: walk the previous `deps`
from the end, unsubscribing from every dep absent from `newDepIds`; then
rotate `newDepIds` into `depIds` and `newDeps` into `deps`, clearing
both `new` collections. -/
def cleanupDeps (wid : Nat) (w : WDeps) (env : DepEnv) : WDeps × DepEnv :=
  let env' := w.deps.reverse.foldl
    (fun e d => if d ∈ w.newDepIds then e else e.removeSub d wid) env
  (⟨w.newDeps, w.newDepIds, [], []⟩, env')

/-- The global `Dep.target` slot plus `targetStack`.  `pushTarget` may
push `undefined`; `undefined` and `null` are collapsed into `none`
("no active watcher"). -/
structure TStack where
  stack : List (Option Nat)
  target : Option Nat

/-- The value `targetStack[targetStack.length - 1]` evaluates to:
the last pushed entry, or `undefined` (collapsed to `none`) on an empty
stack. -/
def lastTarget (st : List (Option Nat)) : Option Nat :=
  st.getLast?.getD none

/-- Model of `pushTarget`: push onto `targetStack` and assign
`Dep.target`. -/
def pushTarget (t : Option Nat) (s : TStack) : TStack :=
  ⟨s.stack ++ [t], t⟩

/-- Model of `popTarget`: pop `targetStack` and restore `Dep.target` to
the new top entry. -/
def popTarget (s : TStack) : TStack :=
  ⟨s.stack.dropLast, lastTarget s.stack.dropLast⟩

structure GetOut where
  w : WDeps
  env : DepEnv
  ts : TStack
  rethrows : Bool

/-- Model of `Watcher.prototype.get`: push self as `Dep.target`, run the
getter — abstracted by `reads`, the sequence of dep ids it touches (a
prefix of the intended reads when the getter throws, `ok = false`; deep
mode only appends further reads via `traverse`) — then, in the `finally`
block and therefore on both the normal and the throwing path, pop the
target and run `cleanupDeps`.  A non-user watcher rethrows a getter
error; a user watcher reports it via `handleError` instead. -/
def watcherGet (wid : Nat) (user : Bool) (reads : List Nat) (ok : Bool)
    (w : WDeps) (env : DepEnv) (ts : TStack) : GetOut :=
  let ts1 := pushTarget (some wid) ts
  let p := reads.foldl (addDep wid) (w, env)
  let ts2 := popTarget ts1
  let q := cleanupDeps wid p.1 p.2
  { w := q.1, env := q.2, ts := ts2, rethrows := !ok && !user }

/-- Well-formedness of a watcher between evaluations: the `new`
collections are empty, `depIds` mirrors `deps`, the watcher is subscribed
to exactly the deps of `depIds`, and never twice to one dep. -/
def WFdeps (wid : Nat) (w : WDeps) (env : DepEnv) : Prop :=
  w.newDeps = [] ∧ w.newDepIds = [] ∧
  (∀ d, d ∈ w.depIds ↔ d ∈ w.deps) ∧
  (∀ d, wid ∈ env.subs d ↔ d ∈ w.depIds) ∧
  (∀ d, (env.subs d).count wid ≤ 1)

/-- Invariant of the `addDep` phase: `rs` are the dep ids read so far. -/
def AddInv (wid : Nat) (w0 : WDeps) (rs : List Nat) (p : WDeps × DepEnv) : Prop :=
  p.1.deps = w0.deps ∧ p.1.depIds = w0.depIds ∧
  (∀ d, d ∈ p.1.newDepIds ↔ d ∈ rs) ∧
  (∀ d, d ∈ p.1.newDeps ↔ d ∈ rs) ∧
  (∀ d, wid ∈ p.2.subs d ↔ (d ∈ w0.depIds ∨ d ∈ rs)) ∧
  (∀ d, (p.2.subs d).count wid ≤ 1)

/-! ## Scheduler (`src/vue/core/components/keep-alive.js`, the scheduler
module: `queueWatcher`, `flushSchedulerQueue`, `resetSchedulerState`)

Watchers are identified with their numeric ids (`watcher.id` drives all
scheduler decisions).  The behaviour of `watcher.run()` is abstracted by
`eff` — the list of watcher ids that get `queueWatcher`-ed during the run
(via writes the callback performs) — and by `readVal`, the value the
watcher's getter observes when it runs.  `runs` logs each `run()` as
`(id, observed value)`; `broke` records the dev-mode circular-update
`break`. -/

def MAX_UPDATE_COUNT : Nat := 100

structure SchedState where
  queue : List Nat
  hasq : List Nat
  circular : Nat → Nat
  index : Nat
  flushing : Bool
  waiting : Bool
  runs : List (Nat × JsVal)
  broke : Bool

def initSched : SchedState :=
  ⟨[], [], fun _ => 0, 0, false, false, [], false⟩

/-- JavaScript `queue.splice(i + 1, 0, watcher)`: insert at position `p`,
clamped to the length (appending) when `p` exceeds it. -/
def insertAt (l : List Nat) (p w : Nat) : List Nat :=
  l.take p ++ w :: l.drop p

/-- The scan of `queueWatcher`'s mid-flush insertion: starting from
`i = queue.length - 1`, decrement while `i > index && queue[i].id >
watcher.id`, and return the final `i + 1` (the splice position). -/
def spliceGo (q : List Nat) (index w : Nat) : Nat → Nat
  | 0 => 1
  | i + 1 => if i + 1 > index ∧ w < q.getD (i + 1) 0 then spliceGo q index w i else i + 2

/-- Model of `queueWatcher`: skip ids whose pending mark (`has[id]`) is
set; otherwise mark it and either append (not flushing) or splice at the
position found relative to the current scan `index` (flushing).  The
final `waiting` toggle stands for scheduling `nextTick
(flushSchedulerQueue)` exactly once per burst; the flush itself is
invoked by the driver (`flushSchedulerQueue` below). -/
def queueWatcher (s : SchedState) (w : Nat) : SchedState :=
  if w ∈ s.hasq then s
  else
    let s1 : SchedState := { s with hasq := w :: s.hasq }
    let s2 : SchedState :=
      if s1.flushing = false then { s1 with queue := s1.queue ++ [w] }
      else
        { s1 with
          queue := insertAt s1.queue (spliceGo s1.queue s1.index w (s1.queue.length - 1)) w }
    if s2.waiting = false then { s2 with waiting := true } else s2

/-- The scan loop of `flushSchedulerQueue`, fuelled (the source loop can
grow its own queue and need not terminate): while `index <
queue.length`, clear the pending mark of `queue[index]`, run it (logging
`(id, readVal id)` and performing its `eff` enqueues), then apply the
dev-mode circular-update check — if the id was re-enqueued during its own
run, bump `circular[id]` and, past `MAX_UPDATE_COUNT`, warn and `break`
out of the whole loop (recorded in `broke`). -/
def flushLoop (eff : Nat → List Nat) (readVal : Nat → JsVal) :
    Nat → SchedState → SchedState
  | 0, s => s
  | fuel + 1, s =>
    if h : s.index < s.queue.length then
      let w := s.queue[s.index]
      let s1 : SchedState := { s with hasq := s.hasq.erase w }
      let s2 : SchedState := (eff w).foldl queueWatcher s1
      let s3 : SchedState := { s2 with runs := s2.runs ++ [(w, readVal w)] }
      if w ∈ s3.hasq then
        let c := s3.circular w + 1
        let s4 : SchedState :=
          { s3 with circular := fun x => if x = w then c else s3.circular x }
        if MAX_UPDATE_COUNT < c then { s4 with broke := true }
        else flushLoop eff readVal fuel { s4 with index := s4.index + 1 }
      else flushLoop eff readVal fuel { s3 with index := s3.index + 1 }
    else s

/-- The `queue.sort((a, b) => a.id - b.id)` step: sort the queue by id
ascending. -/
def sortQueue (q : List Nat) : List Nat :=
  List.insertionSort (· ≤ ·) q

/-- Model of `resetSchedulerState`: clear the queue, pending marks,
circular counters and control flags (the `runs`/`broke` logs are
observation history, not scheduler state, and persist). -/
def resetSchedulerState (s : SchedState) : SchedState :=
  { s with
    index := 0, queue := [], hasq := [], circular := fun _ => 0,
    waiting := false, flushing := false }

/-- Model of `flushSchedulerQueue`: raise `flushing`, sort the queue by
watcher id, run the scan loop, then reset the scheduler state. -/
def flushSchedulerQueue (eff : Nat → List Nat) (readVal : Nat → JsVal)
    (fuel : Nat) (s : SchedState) : SchedState :=
  resetSchedulerState
    (flushLoop eff readVal fuel { s with flushing := true, queue := sortQueue s.queue })

/-- Run effect of a watcher whose callback performs no further writes. -/
def noEff : Nat → List Nat := fun _ => []

/-! ## Reactive writes feeding the scheduler (claim C2's scenario)

`writeField` chains `reactiveSetter` with `dep.notify()` where every
subscriber is a non-lazy, non-sync watcher, whose `update()` therefore
calls `queueWatcher(this)`. -/

structure RSys where
  fields : Nat → JsVal
  sched : SchedState

/-- A write of value `fv.2` to field `fv.1`: under the setter's equality
guard it is a no-op; otherwise the value is stored and every watcher
subscribed to the field's dep is enqueued via `queueWatcher`. -/
def writeField (subsOf : Nat → List Nat) (s : RSys) (fv : Nat × JsVal) : RSys :=
  let value := s.fields fv.1
  if jsStrictEq fv.2 value || (!jsStrictEq fv.2 fv.2 && !jsStrictEq value value) then s
  else
    { fields := fun x => if x = fv.1 then fv.2 else s.fields x
      sched := (subsOf fv.1).foldl queueWatcher s.sched }

/-- A synchronous burst of writes before the flush. -/
def applyWrites (subsOf : Nat → List Nat) (s : RSys) (writes : List (Nat × JsVal)) : RSys :=
  writes.foldl (writeField subsOf) s

/-- Scheduler-state invariant outside a flush: the queue has no duplicate
ids and mirrors the pending-mark set, no flush is in progress and nothing
has run yet. -/
def QInv (s : SchedState) : Prop :=
  s.queue.Nodup ∧ (∀ x, x ∈ s.queue ↔ x ∈ s.hasq) ∧ s.hasq.Nodup ∧
  s.flushing = false ∧ s.index = 0 ∧ s.runs = []

/-- Runaway scenario: watchers 1 and 2 queued; watcher 1's run rewrites
its own tracked field, re-enqueueing watcher 1 every time; watcher 2 is
an innocent bystander with a larger id. -/
def runawaySched : SchedState :=
  ⟨[1, 2], [1, 2], fun _ => 0, 0, false, false, [], false⟩

/-- Run effects for the runaway scenario: only watcher 1 re-enqueues
itself. -/
def runawayEff : Nat → List Nat :=
  fun w => if w = 1 then [1] else []

/-- The flush of the runaway scenario (fuel 300 is ample: the loop breaks
at the circular-update threshold). -/
def runawayResult : SchedState :=
  flushSchedulerQueue runawayEff (fun _ => JsVal.num 0) 300 runawaySched

/-! ## Virtual DOM nodes and the patch algorithm
(`src/vue2/core/vdom/patch.js`)

VNodes carry the fields `sameVnode`/`sameInputType` inspect plus a
`children` list and a model id `nid` standing for the node (and for the
host node it materializes into).  `children` distinguishes the undefined
case from an empty array, as the source does.  The mutual inductive
encoding keeps all recursions structural. -/

structure AsyncFactory where
  fid : Nat
  err : Bool
deriving DecidableEq, Repr

structure VAttrs where
  typ : Option String
deriving DecidableEq, Repr

structure VNodeData where
  attrs : Option VAttrs
deriving DecidableEq, Repr

mutual
inductive VNode where
  | mk (nid : Nat) (key : Option Nat) (tag : Option String) (isComment : Bool)
      (data : Option VNodeData) (isAsyncPlaceholder : Bool)
      (asyncFactory : Option AsyncFactory)
      (children : VNodeChildren) (text : Option String)
inductive VNodeChildren where
  | undef
  | nil
  | cons (head : VNode) (tail : VNodeChildren)
end

def VNode.nid : VNode → Nat
  | .mk n _ _ _ _ _ _ _ _ => n

def VNode.key : VNode → Option Nat
  | .mk _ k _ _ _ _ _ _ _ => k

def VNode.tag : VNode → Option String
  | .mk _ _ t _ _ _ _ _ _ => t

def VNode.isComment : VNode → Bool
  | .mk _ _ _ c _ _ _ _ _ => c

def VNode.data : VNode → Option VNodeData
  | .mk _ _ _ _ d _ _ _ _ => d

def VNode.isAsyncPlaceholder : VNode → Bool
  | .mk _ _ _ _ _ a _ _ _ => a

def VNode.asyncFactory : VNode → Option AsyncFactory
  | .mk _ _ _ _ _ _ f _ _ => f

def VNode.children : VNode → VNodeChildren
  | .mk _ _ _ _ _ _ _ ch _ => ch

def VNode.text : VNode → Option String
  | .mk _ _ _ _ _ _ _ _ t => t

/-- The value of `isDef(i = a.data) && isDef(i = i.attrs) && i.type` in
`sameInputType`: the JS boolean `false` when data or attrs is undefined,
otherwise `attrs.type` (a string, or undefined). -/
inductive InputTy where
  | fls
  | undefT
  | ty (s : String)
deriving DecidableEq, Repr

def getType (a : VNode) : InputTy :=
  match a.data with
  | none => .fls
  | some d =>
    match d.attrs with
    | none => .fls
    | some at2 =>
      match at2.typ with
      | none => .undefT
      | some s => .ty s

/-- `isTextInputType` is a membership map over type strings
(`makeMap` over the text-like input types); it is kept abstract as the
predicate `f`, lifted to the `InputTy` value (a JS falsy lookup argument
is never in the map). -/
def isTextInputType (f : String → Bool) : InputTy → Bool
  | .ty s => f s
  | _ => false

/-- Model of `sameInputType` (`src/vue2/core/vdom/patch.js` lines 65-71):
vacuously true unless `a` is an `input` element; otherwise the two type
attributes must be strictly equal, or both text-input-like. -/
def sameInputType (f : String → Bool) (a b : VNode) : Bool :=
  if a.tag ≠ some "input" then true
  else
    decide (getType a = getType b) ||
      (isTextInputType f (getType a) && isTextInputType f (getType b))

/-- The async-placeholder disjunct of `sameVnode`:
`isTrue(a.isAsyncPlaceholder) && a.asyncFactory === b.asyncFactory &&
isUndef(b.asyncFactory.error)`.  The source's `b.asyncFactory.error`
access presupposes the factory is defined (guarded by the previous
conjunct in every reachable state); the out-of-domain access is modelled
as never-the-same. -/
def asyncBranch (a b : VNode) : Bool :=
  a.isAsyncPlaceholder && decide (a.asyncFactory = b.asyncFactory) &&
    (match b.asyncFactory with
     | some fac => !fac.err
     | none => false)

/-- Model of `sameVnode` (`src/vue2/core/vdom/patch.js` lines 36-61). -/
def sameVnode (f : String → Bool) (a b : VNode) : Bool :=
  decide (a.key = b.key) &&
    ((decide (a.tag = b.tag) && decide (a.isComment = b.isComment) &&
        decide (a.data.isSome = b.data.isSome) && sameInputType f a b) ||
      asyncBranch a b)

/-- The identity test as the specification words it: keys equal, and
either tags equal, comment flags equal, both-or-neither carry data and
(for input elements) same-or-both-text-like input subtype, or `a` is an
unresolved async placeholder and `b` comes from the same, non-errored
async factory. -/
def specSameVnode (f : String → Bool) (a b : VNode) : Prop :=
  a.key = b.key ∧
  ((a.tag = b.tag ∧ a.isComment = b.isComment ∧
      (a.data.isSome ↔ b.data.isSome) ∧
      (a.tag = some "input" →
        (getType a = getType b ∨
          (isTextInputType f (getType a) = true ∧
            isTextInputType f (getType b) = true)))) ∨
    (a.isAsyncPlaceholder = true ∧
      ∃ fac : AsyncFactory, a.asyncFactory = some fac ∧
        b.asyncFactory = some fac ∧ fac.err = false))

mutual
/-- Model of `invokeDestroyHook`: for a node with a `data` payload, run
its destroy hooks (`data.hook.destroy` and the module `destroy` hooks) —
logged as the node's id — then recurse into the children (when
defined). -/
def destroyTrace : VNode → List Nat
  | .mk nid _ _ _ data _ _ children _ =>
      (if data.isSome then [nid] else []) ++ destroyTraceL children
def destroyTraceL : VNodeChildren → List Nat
  | .undef => []
  | .nil => []
  | .cons c rest => destroyTrace c ++ destroyTraceL rest
end

mutual
/-- All nodes of a subtree, the root first, children in order. -/
def subnodes : VNode → List VNode
  | v@(.mk _ _ _ _ _ _ _ children _) => v :: subnodesL children
def subnodesL : VNodeChildren → List VNode
  | .undef => []
  | .nil => []
  | .cons c rest => subnodes c ++ subnodesL rest
end

/-- The direct children as a list (`undef` and the empty array both give
none). -/
def childList : VNodeChildren → List VNode
  | .undef => []
  | .nil => []
  | .cons c rest => c :: childList rest

/-- Host (DOM adapter) operations performed while materializing a
vnode. -/
inductive HostOp where
  | createElement (nid : Nat)
  | createText (nid : Nat)
  | createComment (nid : Nat)
  | appendText (parent : Nat)
  | createHook (nid : Nat)
  | insert (parent : Nat) (nid : Nat)
deriving DecidableEq, Repr

/-- Model of the `insert(parent, elm, ref)` helper: a no-op when the
parent is undefined, otherwise one host insertion (`insertBefore` or
`appendChild`) of the node into the parent. -/
def insertOp : Option Nat → Nat → List HostOp
  | none, _ => []
  | some p, n => [HostOp.insert p n]

mutual
/-- Model of `createElm` (`src/vue2/core/vdom/patch.js` lines 149-241)
restricted to plain (non-component) vnodes, as the trace of host
operations: for an element, create the host element, materialize the
children into it (`createChildren`), run the creation-time hooks
(`invokeCreateHooks`, when `data` is defined), then insert the element
into its own parent; a comment or text vnode is created and inserted
directly.  `createChildrenTrace` also covers the primitive-`text`
fallback used when `children` is not an array. -/
def createElmTrace : VNode → Option Nat → List HostOp
  | .mk nid _ tag isC data _ _ children text, parent =>
    match tag with
    | some _ =>
        HostOp.createElement nid ::
          (createChildrenTrace children text nid ++
            (if data.isSome then [HostOp.createHook nid] else []) ++
            insertOp parent nid)
    | none =>
        if isC then HostOp.createComment nid :: insertOp parent nid
        else HostOp.createText nid :: insertOp parent nid
def createChildrenTrace : VNodeChildren → Option String → Nat → List HostOp
  | .undef, text, nid =>
      match text with
      | some _ => [HostOp.appendText nid]
      | none => []
  | .nil, _, _ => []
  | .cons c rest, text, nid =>
      createElmTrace c (some nid) ++ createChildrenTrace rest text nid
end

/-- A two-node tree: element 0 (with data) whose only child is element 1
(with data). -/
def cexParent : VNode :=
  .mk 0 none (some "div") false (some ⟨none⟩) false none
    (.cons (.mk 1 none (some "span") false (some ⟨none⟩) false none .nil none) .nil)
    none

/-- An element node 0 with data and one text child 1, used to exercise
children-first insertion under parent 9. -/
def insertionDemo : VNode :=
  .mk 0 none (some "p") false (some ⟨none⟩) false none
    (.cons (.mk 1 none none false none false none .undef (some "hi")) .nil)
    none

end DiveIntoVue

namespace DiveIntoVue

/-- C3: for every reactive field write, if the new value is strictly equal
to the old value, or both are self-unequal (NaN-like), the stored value is
unchanged and no notification is sent; otherwise the new value is stored
(observed unless shallow) and the field's Dep notifies all its
subscribers. -/
theorem reactiveSetter_correct (f : RField) (v : JsVal) :
    ((jsStrictEq v f.val = true ∨
        (jsStrictEq v v = false ∧ jsStrictEq f.val f.val = false)) →
      reactiveSetter f v = (f, [])) ∧
    ((jsStrictEq v f.val = false ∧
        (jsStrictEq v v = true ∨ jsStrictEq f.val f.val = true)) →
      (reactiveSetter f v).1.val = v ∧
      (reactiveSetter f v).1.childObserved = (!f.shallow && observeFlag v) ∧
      (reactiveSetter f v).1.dep = f.dep ∧
      (reactiveSetter f v).2 = f.dep.subs) := by
  constructor
  · intro h
    rcases h with h | ⟨h1, h2⟩
    · simp [reactiveSetter, h]
    · simp [reactiveSetter, h1, h2]
  · rintro ⟨h1, h2⟩
    have hcond :
        (jsStrictEq v f.val || (!jsStrictEq v v && !jsStrictEq f.val f.val)) = false := by
      rcases h2 with h2 | h2 <;> simp [h1, h2]
    simp [reactiveSetter, hcond, DepRec.notify]

/-- Witness for C3: a changed write (0 ↦ 1) stores, observes per kind, and
notifies the dep subscribers; an equal write (0 ↦ 0) is a silent no-op. -/
theorem reactiveSetter_correct_witness :
    (reactiveSetter ⟨.num 0, false, false, ⟨7, [3, 5]⟩⟩ (.num 1)).2 = [3, 5] ∧
    reactiveSetter ⟨.num 0, false, false, ⟨7, [3, 5]⟩⟩ (.num 0) =
      (⟨.num 0, false, false, ⟨7, [3, 5]⟩⟩, []) := by
  refine ⟨((reactiveSetter_correct ⟨.num 0, false, false, ⟨7, [3, 5]⟩⟩ (.num 1)).2
      (by decide)).2.2.2, ?_⟩
  exact (reactiveSetter_correct ⟨.num 0, false, false, ⟨7, [3, 5]⟩⟩ (.num 0)).1
    (by decide)

/-- C9: every intercepted mutating method performs the same structural
change and returns the same result as the native method, observes each
newly inserted element (push, unshift, splice), and notifies the
container's Dep exactly once. -/
theorem mutator_correct (m : ArrayMut) (l : List JsVal) :
    (mutator m l).list = (nativeApply m l).1 ∧
    (mutator m l).result = (nativeApply m l).2 ∧
    (mutator m l).notifies = 1 ∧
    insertedSpec m l (mutator m l).list (mutator m l).result (mutator m l).observed := by
  refine ⟨rfl, rfl, rfl, ?_⟩
  cases m with
  | push items => exact ⟨rfl, rfl⟩
  | pop => exact ⟨rfl, rfl⟩
  | shift => exact ⟨rfl, rfl⟩
  | unshift items => exact ⟨rfl, rfl⟩
  | splice s dc items =>
      refine ⟨rfl, l.take (spliceStart s l.length),
        (l.drop (spliceStart s l.length)).take
          (spliceDelete dc l.length (spliceStart s l.length)),
        l.drop (spliceStart s l.length + spliceDelete dc l.length (spliceStart s l.length)),
        ?_, rfl, rfl⟩
      conv_lhs => rw [← List.take_append_drop (spliceStart s l.length) l]
      rw [List.append_assoc, List.append_cancel_left_eq, ← List.drop_drop,
        List.take_append_drop]
  | sortM lt =>
      exact ⟨rfl, List.perm_insertionSort (fun a b => lt a b = true) l⟩
  | reverse => exact ⟨rfl, rfl⟩

theorem addDep_step (wid : Nat) (w0 : WDeps) (rs : List Nat) (p : WDeps × DepEnv)
    (r : Nat) (h : AddInv wid w0 rs p) : AddInv wid w0 (rs ++ [r]) (addDep wid p r) := by
  obtain ⟨h1, h2, h3, h4, h5, h6⟩ := h
  have happ : ∀ d : Nat, d ∈ rs ++ [r] ↔ (d ∈ rs ∨ d = r) := by
    intro d; simp [List.mem_append]
  by_cases hr : r ∈ p.1.newDepIds
  · have hrrs : r ∈ rs := (h3 r).mp hr
    have hmem : ∀ d : Nat, (d ∈ rs ∨ d = r) ↔ d ∈ rs :=
      fun d => ⟨fun h => h.elim id (fun e => e ▸ hrrs), Or.inl⟩
    refine ⟨?_, ?_, ?_, ?_, ?_, ?_⟩ <;>
      simp only [addDep, if_pos hr]
    · exact h1
    · exact h2
    · intro d; rw [happ d, hmem d]; exact h3 d
    · intro d; rw [happ d, hmem d]; exact h4 d
    · intro d; rw [happ d, hmem d]; exact h5 d
    · exact h6
  · have hrrs : r ∉ rs := fun hc => hr ((h3 r).mpr hc)
    by_cases hdep : r ∈ p.1.depIds
    · refine ⟨?_, ?_, ?_, ?_, ?_, ?_⟩ <;>
        simp only [addDep, if_neg hr, if_pos hdep]
      · exact h1
      · exact h2
      · intro d
        rw [happ d]
        simp only [List.mem_cons]
        rw [h3 d]
        tauto
      · intro d
        rw [happ d]
        simp only [List.mem_append, List.mem_singleton]
        rw [h4 d]
      · intro d
        rw [happ d, h5 d]
        by_cases hd : d = r
        · subst hd
          have : d ∈ w0.depIds := h2 ▸ hdep
          tauto
        · tauto
      · exact h6
    · refine ⟨?_, ?_, ?_, ?_, ?_, ?_⟩ <;>
        simp only [addDep, if_neg hr, if_neg hdep]
      · exact h1
      · exact h2
      · intro d
        rw [happ d]
        simp only [List.mem_cons]
        rw [h3 d]
        tauto
      · intro d
        rw [happ d]
        simp only [List.mem_append, List.mem_singleton]
        rw [h4 d]
      · intro d
        simp only [DepEnv.addSub]
        rw [happ d]
        by_cases hd : d = r
        · subst hd
          simp
        · simp only [if_neg hd]
          rw [h5 d]
          tauto
      · intro d
        simp only [DepEnv.addSub]
        by_cases hd : d = r
        · subst hd
          have hnotin : wid ∉ p.2.subs d := by
            rw [h5 d]
            push_neg
            exact ⟨fun hc => hdep (h2 ▸ hc), hrrs⟩
          simp [List.count_append, List.count_eq_zero.mpr hnotin]
        · simp only [if_neg hd]
          exact h6 d

theorem addDep_foldl (wid : Nat) (w0 : WDeps) :
    ∀ (reads rs : List Nat) (p : WDeps × DepEnv), AddInv wid w0 rs p →
      AddInv wid w0 (rs ++ reads) (reads.foldl (addDep wid) p) := by
  intro reads
  induction reads with
  | nil => intro rs p h; simpa using h
  | cons r tl ih =>
      intro rs p h
      have h' := addDep_step wid w0 rs p r h
      have h'' := ih (rs ++ [r]) (addDep wid p r) h'
      simpa [List.append_assoc] using h''

theorem cleanup_foldl (wid : Nat) (nIds : List Nat) :
    ∀ (L : List Nat) (env : DepEnv),
      (∀ d, (env.subs d).count wid ≤ 1) →
      ∀ d,
        (wid ∈ (L.foldl (fun e x => if x ∈ nIds then e else e.removeSub x wid) env).subs d
          ↔ (wid ∈ env.subs d ∧ (d ∈ L → d ∈ nIds))) := by
  intro L
  induction L with
  | nil => intro env _ d; simp
  | cons d0 L ih =>
      intro env hcnt d
      simp only [List.foldl_cons]
      set env1 : DepEnv := if d0 ∈ nIds then env else env.removeSub d0 wid with henv1
      have hcnt1 : ∀ x, (env1.subs x).count wid ≤ 1 := by
        intro x
        by_cases h0 : d0 ∈ nIds
        · simp only [henv1, if_pos h0]; exact hcnt x
        · simp only [henv1, if_neg h0, DepEnv.removeSub]
          by_cases hx : x = d0
          · subst hx
            simp only [if_pos rfl]
            calc (List.erase (env.subs x) wid).count wid
                = (env.subs x).count wid - 1 := List.count_erase_self wid (env.subs x)
              _ ≤ 1 := le_trans (Nat.sub_le _ _) (hcnt x)
          · simp only [if_neg hx]; exact hcnt x
      have hstep : wid ∈ env1.subs d ↔ (wid ∈ env.subs d ∧ (d = d0 → d0 ∈ nIds)) := by
        by_cases h0 : d0 ∈ nIds
        · simp only [henv1, if_pos h0]
          tauto
        · simp only [henv1, if_neg h0, DepEnv.removeSub]
          by_cases hd : d = d0
          · subst hd
            rw [if_pos rfl]
            constructor
            · intro hmem
              exfalso
              have h1 : (List.erase (env.subs d) wid).count wid =
                  (env.subs d).count wid - 1 := List.count_erase_self wid (env.subs d)
              have h2 : 0 < (List.erase (env.subs d) wid).count wid :=
                List.count_pos_iff.mpr hmem
              have h3 := hcnt d
              omega
            · rintro ⟨_, himp⟩
              exact absurd (himp rfl) h0
          · simp only [if_neg hd]
            tauto
      rw [ih env1 hcnt1 d, hstep]
      simp only [List.mem_cons]
      constructor
      · rintro ⟨⟨hs, h1⟩, h2⟩
        refine ⟨hs, ?_⟩
        rintro (rfl | hL)
        · exact h1 rfl
        · exact h2 hL
      · rintro ⟨hs, h12⟩
        exact ⟨⟨hs, fun he => he ▸ h12 (Or.inl he)⟩, fun hL => h12 (Or.inr hL)⟩

/-- C1: after every getter evaluation, the set of deps whose subscriber
list holds the watcher equals exactly the set of dep ids read during that
evaluation — first-time reads gained the subscription, deps not read this
time lost it — and the fresh dependency set was rotated into the old one
(`deps`/`depIds` now hold exactly the reads, `newDeps`/`newDepIds` are
cleared). -/
theorem watcherGet_subscriptions (wid : Nat) (user ok : Bool) (reads : List Nat)
    (w : WDeps) (env : DepEnv) (ts : TStack) (hwf : WFdeps wid w env) :
    (∀ d, wid ∈ (watcherGet wid user reads ok w env ts).env.subs d ↔ d ∈ reads) ∧
    (∀ d, d ∈ (watcherGet wid user reads ok w env ts).w.depIds ↔ d ∈ reads) ∧
    (∀ d, d ∈ (watcherGet wid user reads ok w env ts).w.deps ↔ d ∈ reads) ∧
    (watcherGet wid user reads ok w env ts).w.newDeps = [] ∧
    (watcherGet wid user reads ok w env ts).w.newDepIds = [] := by
  obtain ⟨hnd, hni, hids, hsub, hcnt⟩ := hwf
  have base : AddInv wid w [] (w, env) := by
    refine ⟨rfl, rfl, ?_, ?_, ?_, hcnt⟩
    · intro d; simp [hni]
    · intro d; simp [hnd]
    · intro d; simp [hsub d]
  have hfold := addDep_foldl wid w reads [] (w, env) base
  simp only [List.nil_append] at hfold
  obtain ⟨hp1, hp2, hp3, hp4, hp5, hp6⟩ := hfold
  have hout :
      watcherGet wid user reads ok w env ts =
        { w := ⟨(reads.foldl (addDep wid) (w, env)).1.newDeps,
                (reads.foldl (addDep wid) (w, env)).1.newDepIds, [], []⟩
          env := (reads.foldl (addDep wid) (w, env)).1.deps.reverse.foldl
            (fun e x =>
              if x ∈ (reads.foldl (addDep wid) (w, env)).1.newDepIds then e
              else e.removeSub x wid) (reads.foldl (addDep wid) (w, env)).2
          ts := popTarget (pushTarget (some wid) ts)
          rethrows := !ok && !user } := rfl
  rw [hout]
  refine ⟨?_, hp3, hp4, rfl, rfl⟩
  intro d
  rw [cleanup_foldl wid _ _ _ hp6 d, hp5 d]
  by_cases hdr : d ∈ reads
  · have hnew : d ∈ (reads.foldl (addDep wid) (w, env)).1.newDepIds := (hp3 d).mpr hdr
    simp [hdr, hnew]
  · simp only [hdr, or_false, iff_false]
    by_cases hdi : d ∈ w.depIds
    · have hdeps : d ∈ (reads.foldl (addDep wid) (w, env)).1.deps.reverse := by
        rw [List.mem_reverse, hp1]
        exact (hids d).mp hdi
      have hnew : d ∉ (reads.foldl (addDep wid) (w, env)).1.newDepIds := by
        rw [hp3 d]; exact hdr
      intro hc
      exact hnew (hc.2 hdeps)
    · intro hc
      exact hdi hc.1

/-- Witness for C1: a fresh watcher (id 0) evaluating a getter that reads
deps 1, 2 and 1 again ends up subscribed to dep 1 but not dep 5, with its
dependency set rotated and cleared. -/
theorem watcherGet_subscriptions_witness :
    (0 ∈ (watcherGet 0 false [1, 2, 1] true ⟨[], [], [], []⟩ ⟨fun _ => []⟩
        ⟨[], none⟩).env.subs 1) ∧
    (0 ∉ (watcherGet 0 false [1, 2, 1] true ⟨[], [], [], []⟩ ⟨fun _ => []⟩
        ⟨[], none⟩).env.subs 5) ∧
    (watcherGet 0 false [1, 2, 1] true ⟨[], [], [], []⟩ ⟨fun _ => []⟩
        ⟨[], none⟩).w.newDeps = [] := by
  have h := watcherGet_subscriptions 0 false true [1, 2, 1]
    ⟨[], [], [], []⟩ ⟨fun _ => []⟩ ⟨[], none⟩
    ⟨rfl, rfl, by intro d; simp, by intro d; simp, by intro d; simp⟩
  refine ⟨(h.1 1).mpr (by decide), fun hc => ?_, h.2.2.2.1⟩
  have := (h.1 5).mp hc
  simp at this

theorem queueWatcher_skip (s : SchedState) (w : Nat) (hw : w ∈ s.hasq) :
    queueWatcher s w = s := by
  unfold queueWatcher
  rw [if_pos hw]

theorem queueWatcher_not_flushing (s : SchedState) (w : Nat)
    (hfl : s.flushing = false) (hw : w ∉ s.hasq) :
    queueWatcher s w =
      { s with queue := s.queue ++ [w], hasq := w :: s.hasq, waiting := true } := by
  unfold queueWatcher
  rw [if_neg hw]
  simp only [hfl]
  cases hsw : s.waiting <;> simp [hsw]

theorem queueWatcher_inv (s : SchedState) (w : Nat) (h : QInv s) :
    QInv (queueWatcher s w) := by
  obtain ⟨hnd, hqh, hhnd, hfl, hidx, hruns⟩ := h
  by_cases hw : w ∈ s.hasq
  · rw [queueWatcher_skip s w hw]
    exact ⟨hnd, hqh, hhnd, hfl, hidx, hruns⟩
  · have hwq : w ∉ s.queue := fun hc => hw ((hqh w).mp hc)
    rw [queueWatcher_not_flushing s w hfl hw]
    refine ⟨?_, ?_, ?_, hfl, hidx, hruns⟩
    · simpa [List.nodup_append] using ⟨hnd, hwq⟩
    · intro x
      simp only [List.mem_append, List.mem_singleton, List.mem_cons]
      rw [hqh x]
      tauto
    · simpa [List.nodup_cons] using ⟨hw, hhnd⟩

theorem foldl_queueWatcher_inv (l : List Nat) :
    ∀ s : SchedState, QInv s → QInv (l.foldl queueWatcher s) := by
  induction l with
  | nil => intro s h; simpa using h
  | cons w l ih => intro s h; exact ih (queueWatcher s w) (queueWatcher_inv s w h)

theorem writeField_inv (subsOf : Nat → List Nat) (s : RSys) (fv : Nat × JsVal)
    (h : QInv s.sched) : QInv (writeField subsOf s fv).sched := by
  unfold writeField
  by_cases hc : (jsStrictEq fv.2 (s.fields fv.1) ||
      (!jsStrictEq fv.2 fv.2 && !jsStrictEq (s.fields fv.1) (s.fields fv.1))) = true
  · simpa [hc] using h
  · simp only [Bool.not_eq_true] at hc
    simpa [hc] using foldl_queueWatcher_inv (subsOf fv.1) s.sched h

theorem applyWrites_inv (subsOf : Nat → List Nat) (writes : List (Nat × JsVal)) :
    ∀ s : RSys, QInv s.sched → QInv (applyWrites subsOf s writes).sched := by
  induction writes with
  | nil => intro s h; simpa [applyWrites] using h
  | cons fv writes ih =>
      intro s h
      have h1 := writeField_inv subsOf s fv h
      simpa [applyWrites] using ih (writeField subsOf s fv) h1

theorem flushLoop_noEff (readVal : Nat → JsVal) :
    ∀ (fuel : Nat) (s : SchedState),
      (∀ x, s.hasq.count x ≤ 1) →
      s.queue.length - s.index ≤ fuel →
      (flushLoop noEff readVal fuel s).runs
        = s.runs ++ (s.queue.drop s.index).map (fun w => (w, readVal w)) := by
  intro fuel
  induction fuel with
  | zero =>
      intro s hcnt hlen
      rw [List.drop_eq_nil_of_le (by omega)]
      simp [flushLoop]
  | succ fuel ih =>
      intro s hcnt hlen
      by_cases h : s.index < s.queue.length
      · have hw : s.queue[s.index] ∉ s.hasq.erase s.queue[s.index] := by
          intro hc
          have h1 := List.count_pos_iff.mpr hc
          have h2 := List.count_erase_self s.queue[s.index] s.hasq
          have h3 := hcnt s.queue[s.index]
          omega
        have hstep : flushLoop noEff readVal (fuel + 1) s
            = flushLoop noEff readVal fuel
                { s with hasq := s.hasq.erase s.queue[s.index],
                         runs := s.runs ++ [(s.queue[s.index], readVal s.queue[s.index])],
                         index := s.index + 1 } := by
          simp only [flushLoop, dif_pos h, noEff, List.foldl_nil]
          rw [if_neg hw]
        rw [hstep]
        rw [ih _ ?hc ?hl]
        case hc =>
          intro x
          calc (s.hasq.erase s.queue[s.index]).count x
              ≤ s.hasq.count x := by
                rw [List.count_erase]
                omega
            _ ≤ 1 := hcnt x
        case hl => simpa using by omega
        have hdrop : s.queue.drop s.index = s.queue[s.index] :: s.queue.drop (s.index + 1) :=
          List.drop_eq_getElem_cons h
        rw [hdrop]
        simp only [List.map_cons, List.append_assoc, List.singleton_append]
      · rw [List.drop_eq_nil_of_le (by omega)]
        simp only [flushLoop, dif_neg h]
        simp

theorem flush_noEff_runs (s : SchedState) (rv : Nat → JsVal) (h : QInv s) :
    (flushSchedulerQueue noEff rv s.queue.length s).runs
      = (sortQueue s.queue).map (fun w => (w, rv w)) := by
  obtain ⟨hnd, hqh, hhnd, hfl, hidx, hruns⟩ := h
  have hres : ∀ t : SchedState, (resetSchedulerState t).runs = t.runs := fun t => rfl
  unfold flushSchedulerQueue
  rw [hres]
  rw [flushLoop_noEff rv s.queue.length
    { s with flushing := true, queue := sortQueue s.queue } ?hc ?hl]
  · simp [hruns, hidx]
  case hc => exact fun x => List.nodup_iff_count_le_one.mp hhnd x
  case hl =>
    have : (sortQueue s.queue).length = s.queue.length := by
      unfold sortQueue
      exact List.length_insertionSort _ _
    simp only [this, hidx]
    omega

theorem count_pair_map (rv : Nat → JsVal) (l : List Nat) (wid : Nat) :
    (l.map (fun w => (w, rv w))).count (wid, rv wid) = l.count wid := by
  induction l with
  | nil => simp
  | cons a l ih =>
      simp only [List.map_cons, List.count_cons, ih]
      by_cases ha : a = wid
      · subst ha; simp
      · simp [ha, Prod.ext_iff]

/-- C2: for every non-lazy, non-sync watcher, any synchronous burst of
writes to tracked fields before a flush enqueues the watcher at most once
(duplicate ids are skipped while the pending mark is set), so the flush
invokes its `run()` exactly once, and that run observes the final written
value of the watcher's field. -/
theorem queueWatcher_coalesces (subsOf : Nat → List Nat) (fields0 : Nat → JsVal)
    (writes : List (Nat × JsVal)) (fieldOf : Nat → Nat) (wid : Nat) :
    (applyWrites subsOf ⟨fields0, initSched⟩ writes).sched.queue.count wid ≤ 1 ∧
    (wid ∈ (applyWrites subsOf ⟨fields0, initSched⟩ writes).sched.queue →
      ((flushSchedulerQueue noEff
          (fun x => (applyWrites subsOf ⟨fields0, initSched⟩ writes).fields (fieldOf x))
          (applyWrites subsOf ⟨fields0, initSched⟩ writes).sched.queue.length
          (applyWrites subsOf ⟨fields0, initSched⟩ writes).sched).runs.count
        (wid, (applyWrites subsOf ⟨fields0, initSched⟩ writes).fields (fieldOf wid))
        = 1)) := by
  have hinit : QInv initSched :=
    ⟨List.nodup_nil, fun x => Iff.rfl, List.nodup_nil, rfl, rfl, rfl⟩
  have hinv : QInv (applyWrites subsOf ⟨fields0, initSched⟩ writes).sched :=
    applyWrites_inv subsOf writes ⟨fields0, initSched⟩ hinit
  obtain ⟨hnd, hqh, hhnd, hfl, hidx, hruns⟩ := hinv
  constructor
  · exact List.nodup_iff_count_le_one.mp hnd wid
  · intro hmem
    rw [flush_noEff_runs _ _ ⟨hnd, hqh, hhnd, hfl, hidx, hruns⟩]
    rw [count_pair_map (fun x => (applyWrites subsOf ⟨fields0, initSched⟩ writes).fields
      (fieldOf x)) (sortQueue (applyWrites subsOf ⟨fields0, initSched⟩ writes).sched.queue) wid]
    have hperm : (sortQueue (applyWrites subsOf ⟨fields0, initSched⟩ writes).sched.queue).Perm
        (applyWrites subsOf ⟨fields0, initSched⟩ writes).sched.queue :=
      List.perm_insertionSort _ _
    rw [hperm.count_eq]
    have h1 := List.nodup_iff_count_le_one.mp hnd wid
    have h2 := List.count_pos_iff.mpr hmem
    omega

/-- Witness for C2: field 0 (watched by watcher 1) written to 1 twice
before the flush; watcher 1 is queued once and its single run observes
newValue = 1. -/
theorem queueWatcher_coalesces_witness :
    (applyWrites (fun _ => [1]) ⟨fun _ => .num 0, initSched⟩
        [(0, .num 1), (0, .num 1)]).sched.queue.count 1 ≤ 1 ∧
    ((flushSchedulerQueue noEff
        (fun x => (applyWrites (fun _ => [1]) ⟨fun _ => .num 0, initSched⟩
          [(0, .num 1), (0, .num 1)]).fields ((fun _ => 0) x))
        (applyWrites (fun _ => [1]) ⟨fun _ => .num 0, initSched⟩
          [(0, .num 1), (0, .num 1)]).sched.queue.length
        (applyWrites (fun _ => [1]) ⟨fun _ => .num 0, initSched⟩
          [(0, .num 1), (0, .num 1)]).sched).runs.count (1, .num 1) = 1) := by
  have h := queueWatcher_coalesces (fun _ => [1]) (fun _ => .num 0)
    [(0, .num 1), (0, .num 1)] (fun _ => 0) 1
  refine ⟨h.1, ?_⟩
  have h2 := h.2 (by decide)
  simpa using h2

theorem spliceGo_spec (q : List Nat) (index w : Nat) :
    ∀ i, index ≤ i → i < q.length →
      index < spliceGo q index w i ∧
      spliceGo q index w i ≤ i + 1 ∧
      (∀ j, spliceGo q index w i ≤ j → j ≤ i → w < q.getD j 0) ∧
      (spliceGo q index w i = index + 1 ∨ ¬ w < q.getD (spliceGo q index w i - 1) 0) := by
  intro i
  induction i with
  | zero =>
      intro hle _
      have hidx : index = 0 := Nat.le_zero.mp hle
      subst hidx
      refine ⟨by simp [spliceGo], by simp [spliceGo], ?_, Or.inl (by simp [spliceGo])⟩
      intro j h1 h2
      simp only [spliceGo] at h1
      omega
  | succ i ih =>
      intro hle hlen
      by_cases hcond : (i + 1 > index ∧ w < q.getD (i + 1) 0)
      · have heq : spliceGo q index w (i + 1) = spliceGo q index w i := by
          simp only [spliceGo, if_pos hcond]
        have hle2 : index ≤ i := by omega
        have hlen2 : i < q.length := by omega
        obtain ⟨a, b, c, d⟩ := ih hle2 hlen2
        rw [heq]
        refine ⟨a, by omega, ?_, d⟩
        intro j h1 h2
        rcases Nat.lt_or_ge j (i + 1) with hj | hj
        · exact c j h1 (by omega)
        · have hje : j = i + 1 := by omega
          subst hje
          exact hcond.2
      · have heq : spliceGo q index w (i + 1) = i + 2 := by
          simp only [spliceGo, if_neg hcond]
        rw [heq]
        refine ⟨by omega, by omega, ?_, ?_⟩
        · intro j h1 h2; omega
        · by_cases hidx : index < i + 1
          · right
            have h2 : ¬ w < q.getD (i + 1) 0 := fun hc => hcond ⟨hidx, hc⟩
            simpa using h2
          · left
            omega

theorem pairwise_le_getD (l : List Nat) (h : List.Pairwise (· ≤ ·) l)
    (i j : Nat) (hij : i ≤ j) (hj : j < l.length) :
    l.getD i 0 ≤ l.getD j 0 := by
  have hi : i < l.length := by omega
  rcases Nat.lt_or_ge i j with h1 | h1
  · have h2 := List.pairwise_iff_getElem.mp h i j hi hj h1
    have e1 : l.getD i 0 = l[i] := List.getD_eq_getElem l 0 hi
    have e2 : l.getD j 0 = l[j] := List.getD_eq_getElem l 0 hj
    rw [e1, e2]
    exact h2
  · have he : i = j := by omega
    subst he
    exact le_refl _

theorem getD_drop_eq (q : List Nat) (m k : Nat) (h : m + k < q.length) :
    (q.drop m).getD k 0 = q.getD (m + k) 0 := by
  have hk : k < (q.drop m).length := by rw [List.length_drop]; omega
  rw [List.getD_eq_getElem _ 0 hk, List.getD_eq_getElem q 0 h]
  exact List.getElem_drop q

theorem getD_take_eq (q : List Nat) (p n : Nat) (h : n < p) (h2 : n < q.length) :
    (q.take p).getD n 0 = q.getD n 0 := by
  have hn : n < (q.take p).length := by rw [List.length_take]; omega
  rw [List.getD_eq_getElem _ 0 hn, List.getD_eq_getElem q 0 h2]
  exact List.getElem_take q

theorem sortedInsert (q : List Nat) (index p w : Nat)
    (hip : index < p) (hpl : p ≤ q.length)
    (hhigh : ∀ j, p ≤ j → j < q.length → w < q.getD j 0)
    (hbound : p = index + 1 ∨ ¬ w < q.getD (p - 1) 0)
    (hs : List.Sorted (· ≤ ·) (q.drop (index + 1))) :
    List.Sorted (· ≤ ·) ((insertAt q p w).drop (index + 1)) := by
  have hlen_take : (q.take p).length = p := by
    rw [List.length_take]; omega
  have hsplit : (insertAt q p w).drop (index + 1)
      = (q.take p).drop (index + 1) ++ w :: q.drop p := by
    unfold insertAt
    rw [List.drop_append_of_le_length (by omega)]
  have horig : q.drop (index + 1) = (q.take p).drop (index + 1) ++ q.drop p := by
    conv_lhs => rw [← List.take_append_drop p q]
    rw [List.drop_append_of_le_length (by omega)]
  have hs2 : List.Pairwise (· ≤ ·) ((q.take p).drop (index + 1) ++ q.drop p) := by
    rw [← horig]; exact hs
  obtain ⟨hP, hS, hPS⟩ := List.pairwise_append.mp hs2
  have haP : ∀ a ∈ (q.take p).drop (index + 1), a ≤ w := by
    intro a ha
    obtain ⟨k, hk, hae⟩ := List.mem_iff_getElem.mp ha
    have hkl : k < p - (index + 1) := by
      rw [List.length_drop, hlen_take] at hk; omega
    have htl : index + 1 + k < (q.take p).length := by rw [hlen_take]; omega
    have ha2 : a = q.getD (index + 1 + k) 0 := by
      rw [← List.getD_eq_getElem ((q.take p).drop (index + 1)) 0 hk] at hae
      rw [← hae, getD_drop_eq (q.take p) (index + 1) k htl,
        getD_take_eq q p (index + 1 + k) (by omega) (by omega)]
    rcases hbound with hb1 | hb2
    · omega
    · push_neg at hb2
      have hple := pairwise_le_getD (q.drop (index + 1)) hs k (p - 1 - (index + 1))
        (by omega) (by rw [List.length_drop]; omega)
      rw [getD_drop_eq q (index + 1) k (by omega),
        getD_drop_eq q (index + 1) (p - 1 - (index + 1)) (by omega)] at hple
      rw [show index + 1 + (p - 1 - (index + 1)) = p - 1 from by omega] at hple
      rw [ha2]
      exact le_trans hple hb2
  have hwS : ∀ b ∈ q.drop p, w ≤ b := by
    intro b hb
    obtain ⟨n, hn, hbe⟩ := List.mem_iff_getElem.mp hb
    have hnl : p + n < q.length := by
      rw [List.length_drop] at hn; omega
    have h1 := hhigh (p + n) (by omega) hnl
    have hb2 : b = q.getD (p + n) 0 := by
      rw [← List.getD_eq_getElem (q.drop p) 0 hn] at hbe
      rw [← hbe, getD_drop_eq q p n hnl]
    rw [hb2]
    exact le_of_lt h1
  rw [hsplit]
  refine List.pairwise_append.mpr ⟨hP, ?_, ?_⟩
  · refine List.pairwise_cons.mpr ⟨hwS, hS⟩
  · intro a ha b hb
    rcases List.mem_cons.mp hb with rfl | hbS
    · exact haP a ha
    · exact hPS a ha b hbS

theorem queueWatcher_flushing (s : SchedState) (w : Nat)
    (hfl : s.flushing = true) (hw : w ∉ s.hasq) :
    queueWatcher s w =
      { s with hasq := w :: s.hasq,
               queue := insertAt s.queue
                 (spliceGo s.queue s.index w (s.queue.length - 1)) w,
               waiting := true } := by
  unfold queueWatcher
  rw [if_neg hw]
  simp only [hfl]
  cases hsw : s.waiting <;> simp [hsw]

/-- C4: within a flush, queued watchers run in ascending id order — the
queue is sorted by id before the scan (part one: with no mid-flush
enqueues the run log is exactly the id-sorted queue, an ascending
sequence) — and a watcher enqueued while the flush is in progress is
spliced in after the current scan position: the already-scanned prefix is
untouched, the new watcher lands in the not-yet-scanned suffix (so it
runs in this same flush), and that suffix stays id-sorted, so it runs in
id order relative to the unprocessed entries. -/
theorem flush_ascending_order :
    (∀ (s : SchedState) (rv : Nat → JsVal), QInv s →
      ((flushSchedulerQueue noEff rv s.queue.length s).runs.map Prod.fst
          = sortQueue s.queue ∧
        List.Sorted (· ≤ ·)
          ((flushSchedulerQueue noEff rv s.queue.length s).runs.map Prod.fst))) ∧
    (∀ (s : SchedState) (w : Nat), s.flushing = true → w ∉ s.hasq →
      s.index < s.queue.length →
      ((queueWatcher s w).queue.take (s.index + 1) = s.queue.take (s.index + 1) ∧
        w ∈ (queueWatcher s w).queue.drop (s.index + 1) ∧
        (List.Sorted (· ≤ ·) (s.queue.drop (s.index + 1)) →
          List.Sorted (· ≤ ·) ((queueWatcher s w).queue.drop (s.index + 1))))) := by
  constructor
  · intro s rv hq
    have hruns := flush_noEff_runs s rv hq
    have hmap : (flushSchedulerQueue noEff rv s.queue.length s).runs.map Prod.fst
        = sortQueue s.queue := by
      rw [hruns, List.map_map]
      have hcomp : (Prod.fst ∘ fun w => (w, rv w)) = @id Nat := rfl
      rw [hcomp, List.map_id]
    refine ⟨hmap, ?_⟩
    rw [hmap]
    exact List.sorted_insertionSort (· ≤ ·) s.queue
  · intro s w hfl hw hidx
    rw [queueWatcher_flushing s w hfl hw]
    have hlen1 : 1 ≤ s.queue.length := by omega
    have hil : s.index ≤ s.queue.length - 1 := by omega
    have hll : s.queue.length - 1 < s.queue.length := by omega
    obtain ⟨ha, hb, hc, hd⟩ := spliceGo_spec s.queue s.index w (s.queue.length - 1) hil hll
    have hpl : spliceGo s.queue s.index w (s.queue.length - 1) ≤ s.queue.length := by omega
    have hlen_take : (s.queue.take (spliceGo s.queue s.index w (s.queue.length - 1))).length
        = spliceGo s.queue s.index w (s.queue.length - 1) := by
      rw [List.length_take]; omega
    refine ⟨?_, ?_, ?_⟩
    · unfold insertAt
      rw [List.take_append_of_le_length (by omega), List.take_take,
        min_eq_left (by omega)]
    · unfold insertAt
      rw [List.drop_append_of_le_length (by omega)]
      simp
    · intro hs
      exact sortedInsert s.queue s.index _ w ha hpl
        (fun j h1 h2 => hc j h1 (by omega)) hd hs

/-- Witness for C4: flushing the queue [2, 1] runs watcher 1 before
watcher 2, and a mid-flush enqueue of watcher 2 into queue [1, 3, 4]
(scan at position 0) lands in the unprocessed suffix keeping it
sorted. -/
theorem flush_ascending_order_witness :
    ((flushSchedulerQueue noEff (fun _ => JsVal.num 0)
        (SchedState.queue ⟨[2, 1], [2, 1], fun _ => 0, 0, false, false, [], false⟩).length
        ⟨[2, 1], [2, 1], fun _ => 0, 0, false, false, [], false⟩).runs.map Prod.fst
      = [1, 2]) ∧
    (2 ∈ (queueWatcher ⟨[1, 3, 4], [3, 4], fun _ => 0, 0, true, true, [], false⟩
        2).queue.drop 1 ∧
      List.Sorted (· ≤ ·)
        ((queueWatcher ⟨[1, 3, 4], [3, 4], fun _ => 0, 0, true, true, [], false⟩
          2).queue.drop 1)) := by
  have h := flush_ascending_order
  have h1 := h.1 ⟨[2, 1], [2, 1], fun _ => 0, 0, false, false, [], false⟩
    (fun _ => JsVal.num 0)
    ⟨by decide, fun x => Iff.rfl, by decide, rfl, rfl, rfl⟩
  have h2 := h.2 ⟨[1, 3, 4], [3, 4], fun _ => 0, 0, true, true, [], false⟩ 2
    rfl (by decide) (by decide)
  refine ⟨?_, h2.2.1, h2.2.2 (by decide)⟩
  rw [h1.1]
  decide

theorem queueWatcher_frame (s : SchedState) (w : Nat) :
    (queueWatcher s w).circular = s.circular ∧ (queueWatcher s w).index = s.index ∧
    (queueWatcher s w).runs = s.runs ∧ (queueWatcher s w).broke = s.broke := by
  unfold queueWatcher
  by_cases hw : w ∈ s.hasq
  · rw [if_pos hw]; exact ⟨rfl, rfl, rfl, rfl⟩
  · rw [if_neg hw]
    cases hf : s.flushing <;> cases hw2 : s.waiting <;> simp [hf, hw2]

theorem foldl_queueWatcher_frame (l : List Nat) :
    ∀ s : SchedState,
      (l.foldl queueWatcher s).circular = s.circular ∧
      (l.foldl queueWatcher s).index = s.index ∧
      (l.foldl queueWatcher s).runs = s.runs ∧
      (l.foldl queueWatcher s).broke = s.broke := by
  induction l with
  | nil => intro s; exact ⟨rfl, rfl, rfl, rfl⟩
  | cons w l ih =>
      intro s
      obtain ⟨h1, h2, h3, h4⟩ := ih (queueWatcher s w)
      obtain ⟨g1, g2, g3, g4⟩ := queueWatcher_frame s w
      simp only [List.foldl_cons]
      exact ⟨h1.trans g1, h2.trans g2, h3.trans g3, h4.trans g4⟩

/-- C5 (amended): when a watcher id, re-enqueued during its own run, has
already been counted `MAX_UPDATE_COUNT` (100) times this flush, the
scheduler reports a runaway circular update and `break`s out of the flush
loop: the run log gains only this last run, the scan pointer never
advances, and `broke` is set — so neither that watcher nor any
not-yet-scanned queued watcher runs again in this flush (the post-flush
reset then drops them from the queue). -/
theorem flush_runaway_breaks (eff : Nat → List Nat) (rv : Nat → JsVal) (fuel : Nat)
    (s : SchedState) (h : s.index < s.queue.length)
    (hre : s.queue[s.index] ∈
      ((eff s.queue[s.index]).foldl queueWatcher
        { s with hasq := s.hasq.erase s.queue[s.index] }).hasq)
    (hcirc : MAX_UPDATE_COUNT ≤ s.circular s.queue[s.index]) :
    (flushLoop eff rv (fuel + 1) s).broke = true ∧
    (flushLoop eff rv (fuel + 1) s).runs
      = s.runs ++ [(s.queue[s.index], rv s.queue[s.index])] ∧
    (flushLoop eff rv (fuel + 1) s).index = s.index := by
  obtain ⟨f1, f2, f3, f4⟩ := foldl_queueWatcher_frame (eff s.queue[s.index])
    { s with hasq := s.hasq.erase s.queue[s.index] }
  simp only [flushLoop, dif_pos h]
  rw [if_pos hre, f1]
  rw [if_pos (show MAX_UPDATE_COUNT < s.circular s.queue[s.index] + 1 from by omega)]
  refine ⟨rfl, ?_, ?_⟩
  · simp only [f3]
  · simp only [f2]

/-- Witness for the amended C5: a single queued watcher 5 whose run
re-enqueues itself while its circular count already sits at the
threshold; the next loop step breaks with exactly this one run logged. -/
theorem flush_runaway_breaks_witness :
    (flushLoop (fun _ => [5]) (fun _ => JsVal.num 0) 1
      ⟨[5], [], fun _ => 100, 0, true, true, [], false⟩).broke = true ∧
    (flushLoop (fun _ => [5]) (fun _ => JsVal.num 0) 1
      ⟨[5], [], fun _ => 100, 0, true, true, [], false⟩).runs = [(5, JsVal.num 0)] := by
  have h := flush_runaway_breaks (fun _ => [5]) (fun _ => JsVal.num 0) 0
    ⟨[5], [], fun _ => 100, 0, true, true, [], false⟩ (by decide) (by decide) (by decide)
  exact ⟨h.1, h.2.1⟩

set_option maxRecDepth 40000 in
/-- Counterexample for C5 as stated: in the runaway scenario the claim
says the other queued watcher (id 2) still runs in that same flush; in
fact the `break` aborts the whole scan — the runaway watcher 1 runs 101
times, `broke` is set, and watcher 2, though queued, never runs. -/
theorem flush_runaway_cex :
    2 ∈ runawaySched.queue ∧
    runawayResult.broke = true ∧
    (runawayResult.runs.map Prod.fst).count 1 = 101 ∧
    2 ∉ runawayResult.runs.map Prod.fst := by
  decide

/-- C10: a watcher evaluation restores the globally-active-watcher slot:
the target stack after `watcherGet` equals the stack before it and
`Dep.target` is back to its previous value, for both the normal and the
throwing getter path (the pop runs in the `finally` block); and a
`pushTarget` immediately followed by `popTarget` always restores the
stack. -/
theorem watcherGet_restores_target (wid : Nat) (user ok : Bool) (reads : List Nat)
    (w : WDeps) (env : DepEnv) (ts : TStack) (hc : ts.target = lastTarget ts.stack) :
    (watcherGet wid user reads ok w env ts).ts.stack = ts.stack ∧
    (watcherGet wid user reads ok w env ts).ts.target = ts.target ∧
    (∀ (t : Option Nat) (s : TStack), (popTarget (pushTarget t s)).stack = s.stack) := by
  have hstack : (watcherGet wid user reads ok w env ts).ts.stack = ts.stack := by
    simp [watcherGet, popTarget, pushTarget]
  refine ⟨hstack, ?_, ?_⟩
  · have : (watcherGet wid user reads ok w env ts).ts.target =
        lastTarget (ts.stack ++ [some wid]).dropLast := rfl
    rw [this]
    simp [hc]
  · intro t s
    simp [popTarget, pushTarget]

theorem sameInputType_iff (f : String → Bool) (a b : VNode) :
    sameInputType f a b = true ↔
      (a.tag = some "input" →
        (getType a = getType b ∨
          (isTextInputType f (getType a) = true ∧
            isTextInputType f (getType b) = true))) := by
  unfold sameInputType
  by_cases h : a.tag = some "input"
  · simp [h]
  · simp [h]

theorem asyncBranch_iff (a b : VNode) :
    asyncBranch a b = true ↔
      (a.isAsyncPlaceholder = true ∧
        ∃ fac : AsyncFactory, a.asyncFactory = some fac ∧
          b.asyncFactory = some fac ∧ fac.err = false) := by
  unfold asyncBranch
  cases hb : b.asyncFactory with
  | none => simp [hb]
  | some fac =>
      simp only [hb, Bool.and_eq_true, decide_eq_true_eq]
      constructor
      · rintro ⟨⟨h1, h2⟩, h3⟩
        refine ⟨h1, fac, h2, rfl, ?_⟩
        simpa using h3
      · rintro ⟨h1, g, hg1, hg2, hg3⟩
        have hgf : fac = g := Option.some.inj hg2
        subst hgf
        refine ⟨⟨h1, hg1⟩, ?_⟩
        simp [hg3]

/-- C6: two vnodes are the same logical node (`sameVnode`) iff their keys
are equal and either their tags, comment flags, presence-of-data and (for
input elements) input subtype agree, or the old node is an unresolved
async placeholder from the same, non-errored async factory as the new
one. -/
theorem sameVnode_iff_spec (f : String → Bool) (a b : VNode) :
    sameVnode f a b = true ↔ specSameVnode f a b := by
  unfold sameVnode specSameVnode
  simp only [Bool.and_eq_true, Bool.or_eq_true, decide_eq_true_eq,
    sameInputType_iff f a b, asyncBranch_iff a b]
  constructor
  · rintro ⟨hk, ⟨⟨⟨ht, hc⟩, hd⟩, hi⟩ | hasync⟩
    · exact ⟨hk, Or.inl ⟨ht, hc, by rw [hd], hi⟩⟩
    · exact ⟨hk, Or.inr hasync⟩
  · rintro ⟨hk, ⟨ht, hc, hd, hi⟩ | hasync⟩
    · refine ⟨hk, Or.inl ⟨⟨⟨ht, hc⟩, ?_⟩, hi⟩⟩
      cases ha : a.data.isSome <;> cases hbb : b.data.isSome <;> simp_all
    · exact ⟨hk, Or.inr hasync⟩

/-- Witness for C6: two keyed `input` vnodes with text-like subtypes
`text` and `email` are the same logical node, and the specification
predicate agrees. -/
theorem sameVnode_iff_spec_witness :
    sameVnode (fun s => s = "text" || s = "email")
      (.mk 0 (some 4) (some "input") false (some ⟨some ⟨some "text"⟩⟩) false none
        .undef none)
      (.mk 1 (some 4) (some "input") false (some ⟨some ⟨some "email"⟩⟩) false none
        .undef none) = true ∧
    specSameVnode (fun s => s = "text" || s = "email")
      (.mk 0 (some 4) (some "input") false (some ⟨some ⟨some "text"⟩⟩) false none
        .undef none)
      (.mk 1 (some 4) (some "input") false (some ⟨some ⟨some "email"⟩⟩) false none
        .undef none) := by
  refine ⟨by decide, ?_⟩
  exact (sameVnode_iff_spec (fun s => s = "text" || s = "email")
    (.mk 0 (some 4) (some "input") false (some ⟨some ⟨some "text"⟩⟩) false none
      .undef none)
    (.mk 1 (some 4) (some "input") false (some ⟨some ⟨some "email"⟩⟩) false none
      .undef none)).mp (by decide)

mutual
theorem destroyTrace_eq (v : VNode) :
    destroyTrace v = ((subnodes v).filter (fun u => u.data.isSome)).map VNode.nid := by
  cases v with
  | mk nid key tag isC data iap af children text =>
      cases hd : data <;>
        simp [destroyTrace, subnodes, destroyTraceL_eq children, VNode.data,
          VNode.nid, List.filter_cons, hd]
theorem destroyTraceL_eq (ch : VNodeChildren) :
    destroyTraceL ch = ((subnodesL ch).filter (fun u => u.data.isSome)).map VNode.nid := by
  cases ch with
  | undef => simp [destroyTraceL, subnodesL]
  | nil => simp [destroyTraceL, subnodesL]
  | cons c rest =>
      simp [destroyTraceL, subnodesL, destroyTrace_eq c, destroyTraceL_eq rest,
        List.filter_append]
end

theorem mem_destroyTraceL : ∀ (ch : VNodeChildren) (c : VNode), c ∈ childList ch →
    ∀ x, x ∈ destroyTrace c → x ∈ destroyTraceL ch
  | .undef, c, hc => by simp [childList] at hc
  | .nil, c, hc => by simp [childList] at hc
  | .cons c0 rest, c, hc => by
      intro x hx
      rcases List.mem_cons.mp (by simpa [childList] using hc) with rfl | h2
      · simp only [destroyTraceL, List.mem_append]
        exact Or.inl hx
      · simp only [destroyTraceL, List.mem_append]
        exact Or.inr (mem_destroyTraceL rest c h2 x hx)

mutual
theorem insertParents (v : VNode) (q : Option Nat) (p n : Nat)
    (h : HostOp.insert p n ∈ createElmTrace v q) :
    some p = q ∨ p ∈ (subnodes v).map VNode.nid := by
  cases v with
  | mk nid key tag isC data iap af children text =>
      cases tag with
      | some t =>
          simp only [createElmTrace, List.mem_cons, List.mem_append] at h
          rcases h with h1 | (hch | hhook) | hins
          · exact absurd h1 (by simp)
          · rcases insertParentsL children text nid p n hch with h2 | h2
            · right
              simp [subnodes, VNode.nid, h2]
            · right
              simp only [subnodes, List.map_cons, List.mem_cons]
              exact Or.inr h2
          · cases hdata : data.isSome <;> simp [hdata] at hhook
          · cases q with
            | none => simp [insertOp] at hins
            | some q0 =>
                simp only [insertOp, List.mem_singleton, HostOp.insert.injEq] at hins
                exact Or.inl (by rw [hins.1])
      | none =>
          cases isC <;> cases q <;> simp [createElmTrace, insertOp] at h <;>
            exact Or.inl (by rw [h.1])
theorem insertParentsL (ch : VNodeChildren) (text : Option String) (nid : Nat)
    (p n : Nat) (h : HostOp.insert p n ∈ createChildrenTrace ch text nid) :
    p = nid ∨ p ∈ (subnodesL ch).map VNode.nid := by
  cases ch with
  | undef => cases text <;> simp [createChildrenTrace] at h
  | nil => simp [createChildrenTrace] at h
  | cons c rest =>
      simp only [createChildrenTrace, List.mem_append] at h
      rcases h with h1 | h2
      · rcases insertParents c (some nid) p n h1 with h3 | h3
        · exact Or.inl (Option.some.inj h3)
        · right
          simp only [subnodesL, List.map_append, List.mem_append]
          exact Or.inl h3
      · rcases insertParentsL rest text nid p n h2 with h3 | h3
        · exact Or.inl h3
        · right
          simp only [subnodesL, List.map_append, List.mem_append]
          exact Or.inr h3
end

/-- C7 (amended): `patch(A, null)` tears A's subtree down depth-first in
pre-order — the destroy-hook trace is exactly the pre-order listing of
the data-carrying descendants, so each node's own destroy hooks run
before its children's (not after, as claimed) and, for distinct node ids,
every data-carrying descendant is destroyed exactly once; and the
preceding `patch(null, A)` inserts host nodes only into A's own subtree
(the root insert is skipped for lack of a parent), so no host node is
ever attached outside the discarded subtree and zero host nodes
remain. -/
theorem patch_teardown (A : VNode) :
    destroyTrace A = ((subnodes A).filter (fun u => u.data.isSome)).map VNode.nid ∧
    (((subnodes A).map VNode.nid).Nodup →
      ∀ u ∈ subnodes A, u.data.isSome = true → (destroyTrace A).count u.nid = 1) ∧
    (∀ u ∈ subnodes A, u.data.isSome = true →
      ∃ rest, destroyTrace u = u.nid :: rest ∧
        ∀ c ∈ childList u.children, ∀ dn ∈ subnodes c, dn.data.isSome = true →
          dn.nid ∈ rest) ∧
    (∀ p n, HostOp.insert p n ∈ createElmTrace A none →
      p ∈ (subnodes A).map VNode.nid) := by
  refine ⟨destroyTrace_eq A, ?_, ?_, ?_⟩
  · intro hnd u hu hdata
    rw [destroyTrace_eq A]
    have hsub : List.Sublist (((subnodes A).filter (fun u => u.data.isSome)).map VNode.nid)
        ((subnodes A).map VNode.nid) :=
      (List.filter_sublist (subnodes A)).map VNode.nid
    have hnd2 := List.Nodup.sublist hsub hnd
    have hmem : u.nid ∈ ((subnodes A).filter (fun u => u.data.isSome)).map VNode.nid :=
      List.mem_map_of_mem VNode.nid (List.mem_filter.mpr ⟨hu, hdata⟩)
    have h1 := List.nodup_iff_count_le_one.mp hnd2 u.nid
    have h2 := List.count_pos_iff.mpr hmem
    omega
  · intro u hu hdata
    cases u with
    | mk nid key tag isC data iap af children text =>
        have hd : data.isSome = true := by simpa [VNode.data] using hdata
        refine ⟨destroyTraceL children, by simp [destroyTrace, VNode.nid, hd], ?_⟩
        intro c hc dn hdn hdnd
        have hx : dn.nid ∈ destroyTrace c := by
          rw [destroyTrace_eq c]
          exact List.mem_map_of_mem VNode.nid (List.mem_filter.mpr ⟨hdn, hdnd⟩)
        exact mem_destroyTraceL children c (by simpa [VNode.children] using hc) dn.nid hx
  · intro p n h
    rcases insertParents A none p n h with h1 | h2
    · exact absurd h1 (by simp)
    · exact h2

/-- Witness for C7 (amended): in the two-node tree, the root's destroy
hooks run exactly once. -/
theorem patch_teardown_witness :
    (destroyTrace cexParent).count 0 = 1 := by
  have hmem : cexParent ∈ subnodes cexParent := List.mem_cons_self cexParent _
  have h := (patch_teardown cexParent).2.1 (by decide) cexParent hmem (by decide)
  simpa [cexParent, VNode.nid] using h

/-- Counterexample for C7 as stated: the claim requires each node's
children to be torn down before the node's own teardown, i.e. the
destroy trace of the two-node tree would be [1, 0]; the code destroys the
parent's hooks first, producing [0, 1]. -/
theorem destroy_order_cex :
    destroyTrace cexParent = [0, 1] ∧ destroyTrace cexParent ≠ [1, 0] := by
  decide

theorem createElmTrace_ends (v : VNode) (q : Nat) :
    ∃ pre, createElmTrace v (some q) = pre ++ [HostOp.insert q v.nid] := by
  cases v with
  | mk nid key tag isC data iap af children text =>
      cases tag with
      | some t =>
          exact ⟨HostOp.createElement nid ::
            (createChildrenTrace children text nid ++
              (if data.isSome then [HostOp.createHook nid] else [])),
            by simp [createElmTrace, insertOp, VNode.nid, List.append_assoc]⟩
      | none =>
          cases isC with
          | true => exact ⟨[HostOp.createComment nid],
              by simp [createElmTrace, insertOp, VNode.nid]⟩
          | false => exact ⟨[HostOp.createText nid],
              by simp [createElmTrace, insertOp, VNode.nid]⟩

theorem childInsert_mem (nidp : Nat) : ∀ (ch : VNodeChildren) (text : Option String)
    (c : VNode), c ∈ childList ch →
    HostOp.insert nidp c.nid ∈ createChildrenTrace ch text nidp
  | .undef, text, c, hc => by simp [childList] at hc
  | .nil, _, c, hc => by simp [childList] at hc
  | .cons c0 rest, text, c, hc => by
      rcases List.mem_cons.mp (by simpa [childList] using hc) with rfl | h2
      · obtain ⟨pre, hp⟩ := createElmTrace_ends c nidp
        simp only [createChildrenTrace, List.mem_append]
        left
        rw [hp]
        exact List.mem_append_right pre (List.mem_singleton_self _)
      · simp only [createChildrenTrace, List.mem_append]
        exact Or.inr (childInsert_mem nidp rest text c h2)

/-- C8: materializing a new element node emits host operations in
children-first, parent-last order: the trace of `createElm` for an
element under parent `q` ends with the single insertion of the node into
`q`, and the preceding prefix already contains the insertion of every
child into the node itself and (when the node carries data) its
creation-time hooks. -/
theorem createElm_children_first (nid : Nat) (key : Option Nat) (tag : String)
    (isC : Bool) (data : Option VNodeData) (iap : Bool) (af : Option AsyncFactory)
    (ch : VNodeChildren) (text : Option String) (q : Nat) :
    ∃ pre,
      createElmTrace (.mk nid key (some tag) isC data iap af ch text) (some q)
        = pre ++ [HostOp.insert q nid] ∧
      (∀ c ∈ childList ch, HostOp.insert nid c.nid ∈ pre) ∧
      (data.isSome = true → HostOp.createHook nid ∈ pre) := by
  refine ⟨HostOp.createElement nid ::
    (createChildrenTrace ch text nid ++
      (if data.isSome then [HostOp.createHook nid] else [])), ?_, ?_, ?_⟩
  · simp [createElmTrace, insertOp, List.append_assoc]
  · intro c hc
    exact List.mem_cons_of_mem _
      (List.mem_append_left _ (childInsert_mem nid ch text c hc))
  · intro hd
    exact List.mem_cons_of_mem _ (List.mem_append_right _ (by simp [hd]))

/-- Witness for C8: for the demo element (id 0, one text child id 1)
materialized under parent 9, its own insertion into 9 is in the trace
after the trace prefix that already contains the child's insertion into
node 0 and node 0's create hooks. -/
theorem createElm_children_first_witness :
    HostOp.insert 9 0 ∈ createElmTrace insertionDemo (some 9) ∧
    HostOp.insert 0 1 ∈ createElmTrace insertionDemo (some 9) ∧
    HostOp.createHook 0 ∈ createElmTrace insertionDemo (some 9) := by
  obtain ⟨pre, h1, h2, h3⟩ := createElm_children_first 0 none "p" false (some ⟨none⟩)
    false none (.cons (.mk 1 none none false none false none .undef (some "hi")) .nil)
    none 9
  refine ⟨?_, ?_, ?_⟩
  · rw [show createElmTrace insertionDemo (some 9) = pre ++ [HostOp.insert 9 0] from h1]
    simp
  · rw [show createElmTrace insertionDemo (some 9) = pre ++ [HostOp.insert 9 0] from h1]
    refine List.mem_append_left _ ?_
    have hc : (VNode.mk 1 none none false none false none .undef (some "hi")) ∈
        childList (.cons (.mk 1 none none false none false none .undef (some "hi")) .nil) := by
      simp [childList]
    simpa [VNode.nid] using h2 _ hc
  · rw [show createElmTrace insertionDemo (some 9) = pre ++ [HostOp.insert 9 0] from h1]
    exact List.mem_append_left _ (h3 rfl)

/-- Witness for C10: a throwing (`ok = false`) non-user evaluation on top
of an outer active watcher 9 still restores the stack and target. -/
theorem watcherGet_restores_target_witness :
    (watcherGet 3 false [1] false ⟨[], [], [], []⟩ ⟨fun _ => []⟩
        ⟨[some 9], some 9⟩).ts.stack = [some 9] ∧
    (watcherGet 3 false [1] false ⟨[], [], [], []⟩ ⟨fun _ => []⟩
        ⟨[some 9], some 9⟩).ts.target = some 9 := by
  have h := watcherGet_restores_target 3 false false [1]
    ⟨[], [], [], []⟩ ⟨fun _ => []⟩ ⟨[some 9], some 9⟩ (by rfl)
  exact ⟨h.1, h.2.1⟩

end DiveIntoVue
